import Mathlib

/-!
Verification of the natural-language specification of `ps2isopatcher`
(a PS2 ISO9660 image patcher) against a shallow embedding of its code.

The embedding models the byte store as `List Nat` (one `Nat` per byte),
Python slices as clipping slices, and fallible Python code (exceptions
such as `ValueError`, `IndexError`, `StopIteration`, `AttributeError`)
as `Except String` results.  Names decoded from tables are modelled as
byte lists (Python's `bytes.decode()` is the identity on the byte values
relevant here), and `str.strip()` is modelled by `pyStrip` over bytes.
-/

set_option maxRecDepth 100000

/-- Python slice `l[a:b]` for non-negative bounds: clips at both ends. -/
def pySlice (l : List Nat) (a b : Nat) : List Nat :=
  (l.take b).drop a

/-- `int.from_bytes(l, byteorder="big")`; the empty list decodes to 0,
    exactly as in Python. -/
def intFromBytesBE (l : List Nat) : Nat :=
  l.foldl (fun acc b => acc * 256 + b) 0

/-- `int.from_bytes(l, byteorder="little")`. -/
def intFromBytesLE (l : List Nat) : Nat :=
  l.foldr (fun b acc => acc * 256 + b) 0

/-- `val.to_bytes(length=k, byteorder="little")` (truncating at `256^k`,
    which matches Python whenever the value fits, the only case the code
    exercises). -/
def toBytesLE : Nat → Nat → List Nat
  | 0, _ => []
  | k + 1, v => (v % 256) :: toBytesLE k (v / 256)

/-- `util.both_endian_int`: the 4-byte little-endian encoding followed by
    the 4-byte big-endian encoding — 8 bytes in total. -/
def bothEndianInt (v : Nat) : List Nat :=
  toBytesLE 4 v ++ (toBytesLE 4 v).reverse

/-- The whitespace bytes stripped by Python's `str.strip()` (ASCII range). -/
def isPySpace (b : Nat) : Bool :=
  b == 32 || b == 9 || b == 10 || b == 11 || b == 12 || b == 13

/-- `bytes.decode().strip()` modelled at the byte level: drop leading and
    trailing whitespace. -/
def pyStrip (l : List Nat) : List Nat :=
  ((l.dropWhile isPySpace).reverse.dropWhile isPySpace).reverse

/-- `Ps2Iso.blocks_required`: `ceil(size / block_size)`, written with exact
    natural-number arithmetic. -/
def blocksRequired (bs size : Nat) : Nat :=
  (size + (bs - 1)) / bs

/-- Replace the slice `[a, a + d.length)` of `l` by `d`
    (`l[a:a+len(d)] = d` for `a + len(d) ≤ len(l)`). -/
def listWrite (l : List Nat) (a : Nat) (d : List Nat) : List Nat :=
  l.take a ++ d ++ l.drop (a + d.length)

/-- `Ps2Iso.overwrite` on a mutable store: if the write would run past the
    end, first append zero-filled whole blocks, then splice the data in. -/
def overwrite (store data : List Nat) (bs addr : Nat) : List Nat :=
  listWrite
    (if store.length < addr + data.length then
      store ++ List.replicate (blocksRequired bs (addr + data.length - store.length) * bs) 0
    else store) addr data

theorem pySlice_length (l : List Nat) (a b : Nat) :
    (pySlice l a b).length = min b l.length - a := by
  simp [pySlice]

theorem pySlice_getElem? (l : List Nat) (a b k : Nat) :
    (pySlice l a b)[k]? = if a + k < b then l[a + k]? else none := by
  unfold pySlice
  rw [List.getElem?_drop]
  by_cases h : a + k < b
  · rw [if_pos h, List.getElem?_take_of_lt h]
  · rw [if_neg h, List.getElem?_eq_none]
    simp only [List.length_take]
    omega

theorem listWrite_length (l : List Nat) (a : Nat) (d : List Nat)
    (h : a + d.length ≤ l.length) :
    (listWrite l a d).length = l.length := by
  simp only [listWrite, List.length_append, List.length_take, List.length_drop]
  omega

theorem listWrite_getElem?_lt (l : List Nat) (a : Nat) (d : List Nat) (j : Nat)
    (hj : j < a) (ha : a ≤ l.length) :
    (listWrite l a d)[j]? = l[j]? := by
  unfold listWrite
  rw [List.getElem?_append_left (by simp only [List.length_append, List.length_take]; omega),
    List.getElem?_append_left (by simp only [List.length_take]; omega),
    List.getElem?_take_of_lt hj]

theorem listWrite_getElem?_mid (l : List Nat) (a : Nat) (d : List Nat) (j : Nat)
    (h1 : a ≤ j) (h2 : j < a + d.length) (ha : a ≤ l.length) :
    (listWrite l a d)[j]? = d[j - a]? := by
  unfold listWrite
  rw [List.getElem?_append_left (by simp only [List.length_append, List.length_take]; omega),
    List.getElem?_append_right (by simp only [List.length_take]; omega)]
  congr 1
  simp only [List.length_take]
  omega

theorem listWrite_getElem?_ge (l : List Nat) (a : Nat) (d : List Nat) (j : Nat)
    (h : a + d.length ≤ j) (ha : a ≤ l.length) :
    (listWrite l a d)[j]? = l[j]? := by
  unfold listWrite
  rw [List.getElem?_append_right
      (by simp only [List.length_append, List.length_take]; omega),
    List.getElem?_drop]
  congr 1
  simp only [List.length_append, List.length_take]
  omega

theorem blocksRequired_mul_ge (bs n : Nat) (hbs : 0 < bs) :
    n ≤ blocksRequired bs n * bs := by
  unfold blocksRequired
  have h1 := Nat.div_add_mod (n + (bs - 1)) bs
  have h2 := Nat.mod_lt (n + (bs - 1)) hbs
  rw [Nat.mul_comm] at h1
  omega

/-- After the conditional zero-block extension inside `overwrite`, the write
    always fits. -/
theorem overwrite_extended_length (store data : List Nat) (bs addr : Nat)
    (hbs : 0 < bs) :
    addr + data.length ≤
      (if store.length < addr + data.length then
        store ++ List.replicate
          (blocksRequired bs (addr + data.length - store.length) * bs) 0
      else store).length := by
  by_cases h : store.length < addr + data.length
  · rw [if_pos h]
    simp only [List.length_append, List.length_replicate]
    have := blocksRequired_mul_ge bs (addr + data.length - store.length) hbs
    omega
  · rw [if_neg h]
    omega

theorem overwrite_length_of_le (store data : List Nat) (bs addr : Nat)
    (h : addr + data.length ≤ store.length) :
    (overwrite store data bs addr).length = store.length := by
  unfold overwrite
  rw [if_neg (by omega)]
  exact listWrite_length _ _ _ h

theorem overwrite_length_of_gt (store data : List Nat) (bs addr : Nat)
    (hbs : 0 < bs) (h : store.length < addr + data.length) :
    (overwrite store data bs addr).length =
      store.length + blocksRequired bs (addr + data.length - store.length) * bs := by
  have hext := overwrite_extended_length store data bs addr hbs
  unfold overwrite
  rw [if_pos h] at hext ⊢
  rw [listWrite_length _ _ _ hext]
  simp only [List.length_append, List.length_replicate]

theorem overwrite_length_ge (store data : List Nat) (bs addr : Nat)
    (hbs : 0 < bs) :
    store.length ≤ (overwrite store data bs addr).length := by
  by_cases h : addr + data.length ≤ store.length
  · rw [overwrite_length_of_le store data bs addr h]
  · rw [overwrite_length_of_gt store data bs addr hbs (by omega)]
    omega

/-- Frame property below the write address. -/
theorem overwrite_getElem?_lt (store data : List Nat) (bs addr : Nat) (j : Nat)
    (hbs : 0 < bs) (hj : j < addr) (hjs : j < store.length) :
    (overwrite store data bs addr)[j]? = store[j]? := by
  have hext := overwrite_extended_length store data bs addr hbs
  unfold overwrite
  rw [listWrite_getElem?_lt _ _ _ _ hj (by omega)]
  by_cases h : store.length < addr + data.length
  · rw [if_pos h]
    exact List.getElem?_append_left hjs
  · rw [if_neg h]

/-- Frame property above the write region, within the original store. -/
theorem overwrite_getElem?_ge (store data : List Nat) (bs addr : Nat) (j : Nat)
    (hbs : 0 < bs) (hj : addr + data.length ≤ j) (hjs : j < store.length) :
    (overwrite store data bs addr)[j]? = store[j]? := by
  have hext := overwrite_extended_length store data bs addr hbs
  unfold overwrite
  rw [listWrite_getElem?_ge _ _ _ _ hj (by omega)]
  by_cases h : store.length < addr + data.length
  · rw [if_pos h]
    exact List.getElem?_append_left hjs
  · rw [if_neg h]

/-- The bytes the extension appended, outside the written region, are zero. -/
theorem overwrite_getElem?_ext_zero (store data : List Nat) (bs addr : Nat)
    (j : Nat) (hbs : 0 < bs) (hj : store.length ≤ j)
    (hlt : j < (overwrite store data bs addr).length)
    (hout : j < addr ∨ addr + data.length ≤ j) :
    (overwrite store data bs addr)[j]? = some 0 := by
  have hext := overwrite_extended_length store data bs addr hbs
  by_cases h : store.length < addr + data.length
  · have hlen := overwrite_length_of_gt store data bs addr hbs h
    unfold overwrite at hlt ⊢
    rw [if_pos h] at hext hlt ⊢
    rw [listWrite_length _ _ _ hext] at hlt
    simp only [List.length_append, List.length_replicate] at hlt
    have hget :
        (store ++ List.replicate
          (blocksRequired bs (addr + data.length - store.length) * bs) 0)[j]? =
          some 0 := by
      rw [List.getElem?_append_right hj, List.getElem?_replicate_of_lt (by omega)]
    rcases hout with hout | hout
    · rw [listWrite_getElem?_lt _ _ _ _ hout (by omega)]
      exact hget
    · rw [listWrite_getElem?_ge _ _ _ _ hout (by omega)]
      exact hget
  · exfalso
    have := overwrite_length_of_le store data bs addr (by omega)
    omega

/-- Bytes inside the written region read back as the written data. -/
theorem overwrite_getElem?_mid (store data : List Nat) (bs addr : Nat) (j : Nat)
    (hbs : 0 < bs) (h1 : addr ≤ j) (h2 : j < addr + data.length) :
    (overwrite store data bs addr)[j]? = data[j - addr]? := by
  have hext := overwrite_extended_length store data bs addr hbs
  unfold overwrite
  exact listWrite_getElem?_mid _ _ _ _ h1 h2 (by omega)

/-- The written region reads back as exactly the written data, as a slice. -/
theorem overwrite_pySlice_eq (store data : List Nat) (bs addr : Nat)
    (hbs : 0 < bs) :
    pySlice (overwrite store data bs addr) addr (addr + data.length) = data := by
  apply List.ext_getElem?
  intro k
  rw [pySlice_getElem?]
  by_cases hk : k < data.length
  · rw [if_pos (by omega)]
    rw [overwrite_getElem?_mid store data bs addr (addr + k) hbs (by omega) (by omega)]
    congr 1
    omega
  · rw [if_neg (by omega), List.getElem?_eq_none (by omega)]

/-- C6: for every mutable store of length `L`, every data buffer and every
    address `a`, `overwrite(data, a)` keeps the length at `L` when the write
    fits; otherwise it grows the store by `ceil((a + len(data) - L) / bs)`
    whole blocks, every appended byte outside the written region reads as
    zero, and the store never shrinks. -/
theorem c6_overwrite_extension (store data : List Nat) (bs addr : Nat)
    (hbs : 0 < bs) :
    (addr + data.length ≤ store.length →
      (overwrite store data bs addr).length = store.length) ∧
    (store.length < addr + data.length →
      (overwrite store data bs addr).length =
        store.length +
          blocksRequired bs (addr + data.length - store.length) * bs) ∧
    (∀ j, store.length ≤ j → j < (overwrite store data bs addr).length →
      (j < addr ∨ addr + data.length ≤ j) →
      (overwrite store data bs addr)[j]? = some 0) ∧
    store.length ≤ (overwrite store data bs addr).length := by
  refine ⟨fun h => overwrite_length_of_le store data bs addr h,
    fun h => overwrite_length_of_gt store data bs addr hbs h,
    fun j hj hlt hout => overwrite_getElem?_ext_zero store data bs addr j hbs hj hlt hout,
    overwrite_length_ge store data bs addr hbs⟩

/-- Witness for C6 at a concrete input: store `[1,2,3]`, write `[9,9]` at
    address 4 with block size 2 grows the store to `[1,2,3,0,9,9,0]`. -/
theorem c6_overwrite_extension_witness :
    (overwrite [1, 2, 3] [9, 9] 2 4).length =
      3 + blocksRequired 2 (4 + 2 - 3) * 2 ∧
    (overwrite [1, 2, 3] [9, 9] 2 4)[3]? = some 0 ∧
    (overwrite [1, 2, 3] [9, 9] 2 4)[6]? = some 0 := by
  refine ⟨(c6_overwrite_extension [1, 2, 3] [9, 9] 2 4 (by decide)).2.1 (by decide),
    (c6_overwrite_extension [1, 2, 3] [9, 9] 2 4 (by decide)).2.2.1 3
      (by decide) (by decide) (by decide),
    (c6_overwrite_extension [1, 2, 3] [9, 9] 2 4 (by decide)).2.2.1 6
      (by decide) (by decide) (by decide)⟩

/-! ## Path table records (`PathTable.get_entries` and the record layout) -/

/-- Name-length byte of a path-table record, `int.from_bytes(tbl[i:i+1])`. -/
def ptNameLen (entry : List Nat) : Nat :=
  intFromBytesBE (pySlice entry 0 1)

/-- Total record length: name length plus 8 header bytes, plus one padding
    byte when the name length is odd. -/
def ptTotalLen (entry : List Nat) : Nat :=
  ptNameLen entry + 8 + (if ptNameLen entry % 2 = 1 then 1 else 0)

/-- `LPathTable._get_lba`: little-endian 4-byte field at offset 2. -/
def ptGetLba (entry : List Nat) : Nat :=
  intFromBytesLE (pySlice entry 2 6)

/-- `LPathTable._get_parent_dir_id`: little-endian 2-byte field at offset 6. -/
def ptGetParent (entry : List Nat) : Nat :=
  intFromBytesLE (pySlice entry 6 8)

/-- `PathTable._get_name`: name bytes at offset 8, whitespace-stripped. -/
def ptGetName (entry : List Nat) (len : Nat) : List Nat :=
  pyStrip (pySlice entry 8 (8 + len))

/-- Re-encoder for a decoded path-table entry, following the record layout
    stated in the specification: 1 byte name length, 1 byte extended-attribute
    length (necessarily written as 0 — a decoded entry does not retain it),
    4-byte little-endian LBA, 2-byte little-endian parent ordinal, the name
    bytes, and one (zero) padding byte when the name length is odd. -/
def ptEncode (name : List Nat) (lba parent : Nat) : List Nat :=
  name.length :: 0 :: (toBytesLE 4 lba ++ toBytesLE 2 parent ++ name ++
    (if name.length % 2 = 1 then [0] else []))

/-- Decode a path-table record and re-encode it per the record layout. -/
def ptReencode (entry : List Nat) : List Nat :=
  ptEncode (ptGetName entry (ptNameLen entry)) (ptGetLba entry)
    (ptGetParent entry)

theorem toBytesLE_length (k v : Nat) : (toBytesLE k v).length = k := by
  induction k generalizing v with
  | zero => rfl
  | succ k ih => simp [toBytesLE, ih]

theorem intFromBytesLE_toBytesLE (k v : Nat) (h : v < 256 ^ k) :
    intFromBytesLE (toBytesLE k v) = v := by
  induction k generalizing v with
  | zero =>
    simp only [Nat.pow_zero, Nat.lt_one_iff] at h
    simp [toBytesLE, intFromBytesLE, h]
  | succ k ih =>
    have hdiv : v / 256 < 256 ^ k := by
      rw [Nat.div_lt_iff_lt_mul (by omega)]
      calc v < 256 ^ (k + 1) := h
        _ = 256 ^ k * 256 := by ring
    simp only [toBytesLE, intFromBytesLE, List.foldr_cons]
    have := ih (v / 256) hdiv
    simp only [intFromBytesLE] at this
    rw [this]
    omega

theorem pySlice_append_chunk (pre mid post : List Nat) :
    pySlice (pre ++ mid ++ post) pre.length (pre.length + mid.length) = mid := by
  unfold pySlice
  rw [List.append_assoc, List.take_append, List.drop_left]
  rw [List.take_left]

theorem ptEncode_length (name : List Nat) (lba parent : Nat) :
    (ptEncode name lba parent).length =
      name.length + 8 + (if name.length % 2 = 1 then 1 else 0) := by
  simp only [ptEncode, List.length_cons, List.length_append, toBytesLE_length]
  by_cases h : name.length % 2 = 1 <;> simp [h] <;> omega

theorem ptEncode_as_append (name : List Nat) (lba parent : Nat) :
    ptEncode name lba parent =
      [name.length, 0] ++ toBytesLE 4 lba ++ toBytesLE 2 parent ++ name ++
        (if name.length % 2 = 1 then [0] else []) := by
  simp [ptEncode, List.append_assoc]

theorem ptNameLen_encode (name : List Nat) (lba parent : Nat) (rest : List Nat) :
    ptNameLen (ptEncode name lba parent ++ rest) = name.length := by
  simp [ptNameLen, ptEncode, pySlice, intFromBytesBE]

theorem ptTotalLen_encode (name : List Nat) (lba parent : Nat) (rest : List Nat) :
    ptTotalLen (ptEncode name lba parent ++ rest) =
      (ptEncode name lba parent).length := by
  rw [ptTotalLen, ptNameLen_encode, ptEncode_length]

theorem ptGetLba_encode (name : List Nat) (lba parent : Nat)
    (h : lba < 256 ^ 4) : ptGetLba (ptEncode name lba parent) = lba := by
  have hchunk := pySlice_append_chunk [name.length, 0] (toBytesLE 4 lba)
    (toBytesLE 2 parent ++ name ++ (if name.length % 2 = 1 then [0] else []))
  simp only [List.length_cons, List.length_nil, toBytesLE_length] at hchunk
  rw [ptGetLba]
  norm_num at hchunk
  simp only [ptEncode, List.cons_append, List.nil_append, List.append_assoc]
  rw [hchunk]
  exact intFromBytesLE_toBytesLE 4 lba h

theorem ptGetParent_encode (name : List Nat) (lba parent : Nat)
    (h : parent < 256 ^ 2) : ptGetParent (ptEncode name lba parent) = parent := by
  have hchunk := pySlice_append_chunk ([name.length, 0] ++ toBytesLE 4 lba)
    (toBytesLE 2 parent)
    (name ++ (if name.length % 2 = 1 then [0] else []))
  simp only [List.length_append, List.length_cons, List.length_nil,
    toBytesLE_length] at hchunk
  rw [ptGetParent]
  norm_num at hchunk
  simp only [ptEncode, List.cons_append, List.nil_append, List.append_assoc]
  rw [hchunk]
  exact intFromBytesLE_toBytesLE 2 parent h

theorem ptGetName_encode (name : List Nat) (lba parent : Nat)
    (hname : pyStrip name = name) :
    ptGetName (ptEncode name lba parent) name.length = name := by
  have hchunk := pySlice_append_chunk
    ([name.length, 0] ++ toBytesLE 4 lba ++ toBytesLE 2 parent) name
    (if name.length % 2 = 1 then [0] else [])
  simp only [List.length_append, List.length_cons, List.length_nil,
    toBytesLE_length] at hchunk
  rw [ptGetName]
  norm_num at hchunk
  simp only [ptEncode, List.cons_append, List.nil_append, List.append_assoc]
  rw [hchunk]
  exact hname

/-- C7 (amended): a path-table record round-trips through decode/re-encode
    byte-for-byte provided the on-disk record already has a zero
    extended-attribute byte, a zero padding byte, and a name with no leading
    or trailing whitespace (these are the parts a decoded `(name, LBA,
    parent)` tuple cannot retain), and the LBA and parent ordinal fit their
    4- and 2-byte fields.  The record is extracted from the table exactly as
    `PathTable.get_entries` does, via the name-length byte. -/
theorem c7_pathtable_roundtrip (name : List Nat) (lba parent : Nat)
    (rest : List Nat) (hlba : lba < 256 ^ 4) (hparent : parent < 256 ^ 2)
    (hname : pyStrip name = name) :
    ptReencode
        (pySlice (ptEncode name lba parent ++ rest) 0
          (ptTotalLen (ptEncode name lba parent ++ rest))) =
      ptEncode name lba parent := by
  have hentry :
      pySlice (ptEncode name lba parent ++ rest) 0
          (ptTotalLen (ptEncode name lba parent ++ rest)) =
        ptEncode name lba parent := by
    rw [ptTotalLen_encode]
    unfold pySlice
    rw [List.take_left, List.drop_zero]
  rw [hentry]
  have hlen : ptNameLen (ptEncode name lba parent) = name.length := by
    have := ptNameLen_encode name lba parent []
    rwa [List.append_nil] at this
  rw [ptReencode, hlen, ptGetName_encode name lba parent hname,
    ptGetLba_encode name lba parent hlba,
    ptGetParent_encode name lba parent hparent]

/-- Witness for C7 (amended) at a concrete record: name `"A"` (byte 65),
    LBA 1, parent 2, followed by unrelated table bytes. -/
theorem c7_pathtable_roundtrip_witness :
    ptReencode
        (pySlice (ptEncode [65] 1 2 ++ [99, 99]) 0
          (ptTotalLen (ptEncode [65] 1 2 ++ [99, 99]))) =
      ptEncode [65] 1 2 :=
  c7_pathtable_roundtrip [65] 1 2 [99, 99] (by decide) (by decide) (by decide)

/-- Counterexample to C7 as stated: the record
    `[1, 7, 1, 0, 0, 0, 2, 0, 65, 0]` (name length 1, extended-attribute
    byte 7, LBA 1, parent 2, name byte 65, padding byte 0) decodes to the
    entry `(name = [65], lba = 1, parent = 2)`, but re-encoding that entry
    according to the record layout yields `[1, 0, 1, 0, 0, 0, 2, 0, 65, 0]`,
    which differs from the original record at the extended-attribute byte:
    decoding does not retain it, so the round-trip is not byte-for-byte. -/
theorem c7_pathtable_roundtrip_counterexample :
    ptTotalLen [1, 7, 1, 0, 0, 0, 2, 0, 65, 0] = 10 ∧
    pySlice [1, 7, 1, 0, 0, 0, 2, 0, 65, 0] 0 10 =
      [1, 7, 1, 0, 0, 0, 2, 0, 65, 0] ∧
    ptGetName [1, 7, 1, 0, 0, 0, 2, 0, 65, 0]
      (ptNameLen [1, 7, 1, 0, 0, 0, 2, 0, 65, 0]) = [65] ∧
    ptGetLba [1, 7, 1, 0, 0, 0, 2, 0, 65, 0] = 1 ∧
    ptGetParent [1, 7, 1, 0, 0, 0, 2, 0, 65, 0] = 2 ∧
    ptReencode [1, 7, 1, 0, 0, 0, 2, 0, 65, 0] =
      [1, 0, 1, 0, 0, 0, 2, 0, 65, 0] ∧
    ptReencode [1, 7, 1, 0, 0, 0, 2, 0, 65, 0] ≠
      [1, 7, 1, 0, 0, 0, 2, 0, 65, 0] := by
  decide

/-! ## Directory tables (`DirTable`) -/

/-- `DirTable._get_lba`: little-endian 4-byte field at record offset 2. -/
def dtGetLba (entry : List Nat) : Nat :=
  intFromBytesLE (pySlice entry 2 6)

/-- `DirTable._get_size`: little-endian 4-byte field at record offset 10. -/
def dtGetSize (entry : List Nat) : Nat :=
  intFromBytesLE (pySlice entry 10 14)

/-- `DirTable._get_name_length`: 1-byte field at record offset 32. -/
def dtGetNameLength (entry : List Nat) : Nat :=
  intFromBytesLE (pySlice entry 32 33)

/-- `DirTable._get_name`: name bytes at record offset 33,
    whitespace-stripped. -/
def dtGetName (entry : List Nat) (len : Nat) : List Nat :=
  pyStrip (pySlice entry 33 (33 + len))

/-- The scan loop of `DirTable.set_entry`: walk the records of one
    directory block, stopping at the first record whose (stripped, decoded)
    name equals the target; a zero length byte ends the scan with no match,
    and reading past the end of the block is an `IndexError`.  The fuel
    argument only bounds the recursion; `tbl.length + 1` steps always
    suffice because the scan index strictly increases while it stays inside
    the table. -/
def scanTblF : Nat → List Nat → List Nat → Nat → Except String (Option Nat)
  | 0, _, _, _ => .error "fuel exhausted"
  | fuel + 1, tbl, name, idx =>
    match tbl[idx]? with
    | none => .error "IndexError"
    | some 0 => .ok none
    | some (n + 1) =>
      let entry := pySlice tbl idx (idx + (n + 1))
      if dtGetName entry (dtGetNameLength entry) = name then .ok (some idx)
      else scanTblF fuel tbl name (idx + (n + 1))

/-- The record scan of `DirTable.set_entry`, started at index 0. -/
def scanTbl (tbl name : List Nat) : Except String (Option Nat) :=
  scanTblF (tbl.length + 1) tbl name 0

/-- `DirTable.set_entry(name, lba, size)` over a store: scan the one-block
    table at `dtAddr` for the first record matching `name`; on a match,
    overwrite the 8-byte both-endian LBA field at record offset 2 and the
    8-byte both-endian size field at record offset 10; when the scan ends at
    a zero-length record the store is returned unchanged. -/
def setEntry (store : List Nat) (bs dtAddr : Nat) (name : List Nat)
    (lba size : Nat) : Except String (List Nat) :=
  match scanTbl (pySlice store dtAddr (dtAddr + bs)) name with
  | .error e => .error e
  | .ok none => .ok store
  | .ok (some idx) =>
    .ok (overwrite (overwrite store (bothEndianInt lba) bs (dtAddr + idx + 2))
      (bothEndianInt size) bs (dtAddr + idx + 10))

/-- The scan of `set_entry` reaches `off` exactly when every record it
    walks over before `off` fails the name comparison and the record at
    `off` matches: this inductive relation certifies that `off` is the
    first matching record in scan order. -/
inductive ScanHit (tbl name : List Nat) : Nat → Nat → Prop where
  | hit (idx n : Nat) (hrec : tbl[idx]? = some (n + 1))
      (hmatch : dtGetName (pySlice tbl idx (idx + (n + 1)))
        (dtGetNameLength (pySlice tbl idx (idx + (n + 1)))) = name) :
      ScanHit tbl name idx idx
  | step (idx n off : Nat) (hrec : tbl[idx]? = some (n + 1))
      (hmiss : dtGetName (pySlice tbl idx (idx + (n + 1)))
        (dtGetNameLength (pySlice tbl idx (idx + (n + 1)))) ≠ name)
      (htail : ScanHit tbl name (idx + (n + 1)) off) :
      ScanHit tbl name idx off

theorem scanTblF_sound (fuel : Nat) (tbl name : List Nat) (idx off : Nat)
    (h : scanTblF fuel tbl name idx = .ok (some off)) :
    ScanHit tbl name idx off := by
  induction fuel generalizing idx with
  | zero => simp [scanTblF] at h
  | succ fuel ih =>
    rw [scanTblF] at h
    cases hrec : tbl[idx]? with
    | none => rw [hrec] at h; simp at h
    | some n =>
      rw [hrec] at h
      cases n with
      | zero => simp at h
      | succ n =>
        simp only at h
        by_cases hm : dtGetName (pySlice tbl idx (idx + (n + 1)))
            (dtGetNameLength (pySlice tbl idx (idx + (n + 1)))) = name
        · rw [if_pos hm] at h
          have : idx = off := by
            have := h
            simp at this
            omega
          subst this
          exact ScanHit.hit idx n hrec hm
        · rw [if_neg hm] at h
          exact ScanHit.step idx n off hrec hm (ih _ h)

theorem scanTbl_sound (tbl name : List Nat) (off : Nat)
    (h : scanTbl tbl name = .ok (some off)) : ScanHit tbl name 0 off :=
  scanTblF_sound _ tbl name 0 off h

theorem bothEndianInt_length (v : Nat) : (bothEndianInt v).length = 8 := by
  simp [bothEndianInt, toBytesLE_length]

theorem pySlice_congr_of_getElem? (l1 l2 : List Nat) (a b : Nat)
    (h : ∀ j, a ≤ j → j < b → l1[j]? = l2[j]?) :
    pySlice l1 a b = pySlice l2 a b := by
  apply List.ext_getElem?
  intro k
  rw [pySlice_getElem?, pySlice_getElem?]
  by_cases hk : a + k < b
  · rw [if_pos hk, if_pos hk]
    exact h (a + k) (by omega) hk
  · rw [if_neg hk, if_neg hk]

/-- C8: when the `set_entry` scan reaches a zero-length record without
    having found a record matching the target name, the call returns with no
    failure signalled and the store byte-for-byte unchanged (the silent-miss
    behaviour the specification flags as a defect to fix). -/
theorem c8_setentry_silent_miss (store : List Nat) (bs dtAddr : Nat)
    (name : List Nat) (lba size : Nat)
    (h : scanTbl (pySlice store dtAddr (dtAddr + bs)) name = .ok none) :
    setEntry store bs dtAddr name lba size = .ok store := by
  unfold setEntry
  rw [h]

/-- Witness for C8 at a concrete input: a table whose single (degenerate)
    record does not match, followed by the zero end-of-block marker. -/
theorem c8_setentry_silent_miss_witness :
    scanTbl (pySlice [1, 0] 0 (0 + 2)) [65] = .ok none ∧
    setEntry [1, 0] 2 0 [65] 3 4 = .ok [1, 0] :=
  ⟨rfl, c8_setentry_silent_miss [1, 0] 2 0 [65] 3 4 rfl⟩

/-- C3 (amended): when `set_entry` finds a matching record, it modifies only
    the first matching record in scan order (certified by `ScanHit`), and
    within that record only the 8-byte both-endian LBA field at record
    offsets 2–9 and the 8-byte both-endian size field at record offsets
    10–17 (`both_endian_int` emits 8 bytes, little-endian then big-endian,
    not 4): every byte outside those two fields is unchanged and the store
    keeps its length, provided the fields lie inside the store. -/
theorem c3_setentry_frame (store : List Nat) (bs dtAddr : Nat)
    (name : List Nat) (lba size off : Nat) (hbs : 0 < bs)
    (hscan : scanTbl (pySlice store dtAddr (dtAddr + bs)) name = .ok (some off))
    (hfit : dtAddr + off + 18 ≤ store.length) :
    ScanHit (pySlice store dtAddr (dtAddr + bs)) name 0 off ∧
    ∃ s2, setEntry store bs dtAddr name lba size = .ok s2 ∧
      s2.length = store.length ∧
      (∀ j, j < dtAddr + off + 2 ∨ dtAddr + off + 18 ≤ j →
        s2[j]? = store[j]?) ∧
      pySlice s2 (dtAddr + off + 2) (dtAddr + off + 10) = bothEndianInt lba ∧
      pySlice s2 (dtAddr + off + 10) (dtAddr + off + 18) = bothEndianInt size := by
  refine ⟨scanTbl_sound _ _ _ hscan, ?_⟩
  have hl8 : (bothEndianInt lba).length = 8 := bothEndianInt_length lba
  have hs8 : (bothEndianInt size).length = 8 := bothEndianInt_length size
  set s1 := overwrite store (bothEndianInt lba) bs (dtAddr + off + 2) with hs1
  have hlen1 : s1.length = store.length := by
    rw [hs1]
    exact overwrite_length_of_le _ _ _ _ (by omega)
  set s2 := overwrite s1 (bothEndianInt size) bs (dtAddr + off + 10) with hs2
  have hlen2 : s2.length = s1.length := by
    rw [hs2]
    exact overwrite_length_of_le _ _ _ _ (by omega)
  have hsome : setEntry store bs dtAddr name lba size = .ok s2 := by
    unfold setEntry
    rw [hscan]
  refine ⟨s2, hsome, by omega, ?_, ?_, ?_⟩
  · intro j hj
    by_cases hjl : j < store.length
    · have h1 : s1[j]? = store[j]? := by
        rw [hs1]
        rcases hj with hj | hj
        · exact overwrite_getElem?_lt _ _ _ _ _ hbs (by omega) hjl
        · exact overwrite_getElem?_ge _ _ _ _ _ hbs (by omega) hjl
      have h2 : s2[j]? = s1[j]? := by
        rw [hs2]
        rcases hj with hj | hj
        · exact overwrite_getElem?_lt _ _ _ _ _ hbs (by omega) (by omega)
        · exact overwrite_getElem?_ge _ _ _ _ _ hbs (by omega) (by omega)
      rw [h2, h1]
    · rw [List.getElem?_eq_none (by omega), List.getElem?_eq_none (by omega)]
  · have hmid : pySlice s2 (dtAddr + off + 2) (dtAddr + off + 10) =
        pySlice s1 (dtAddr + off + 2) (dtAddr + off + 10) := by
      apply pySlice_congr_of_getElem?
      intro j hjl hjr
      rw [hs2]
      exact overwrite_getElem?_lt _ _ _ _ _ hbs (by omega) (by omega)
    rw [hmid, hs1]
    have := overwrite_pySlice_eq store (bothEndianInt lba) bs
      (dtAddr + off + 2) hbs
    rw [hl8] at this
    rw [show dtAddr + off + 2 + 8 = dtAddr + off + 10 from by omega] at this
    exact this
  · rw [hs2]
    have := overwrite_pySlice_eq s1 (bothEndianInt size) bs
      (dtAddr + off + 10) hbs
    rw [hs8] at this
    rw [show dtAddr + off + 10 + 8 = dtAddr + off + 18 from by omega] at this
    exact this

/-- The concrete directory table used to refute C3 as stated: one record of
    total length 34 whose big-endian LBA half (record offsets 6–9) holds
    the bytes `9, 9, 9, 9`, name `"A"` (byte 65) at offset 33, followed by
    the zero end-of-block marker. -/
def c3Store : List Nat :=
  [34, 0, 1, 0, 0, 0, 9, 9, 9, 9, 5, 0, 0, 0, 0, 0, 0, 0] ++
    List.replicate 14 0 ++ [1, 65, 0] ++ List.replicate 5 0

/-- Counterexample to C3 as stated: `set_entry` on `c3Store` (match at
    record offset 0) changes byte 6 — which lies outside the 4-byte LBA
    field at offsets 2–5 and the 4-byte size field at offsets 10–13 — from
    9 to 0, because `both_endian_int` writes 8 bytes at each field. -/
theorem c3_setentry_frame_counterexample :
    (setEntry c3Store 40 0 [65] 2 5).map (fun l => l[6]?) =
      .ok (some 0) ∧
    c3Store[6]? = some 9 ∧
    (setEntry c3Store 40 0 [65] 2 5).map List.length = .ok c3Store.length := by
  exact ⟨rfl, rfl, rfl⟩

/-- Witness for C3 (amended) at the same concrete table. -/
theorem c3_setentry_frame_witness :
    ScanHit (pySlice c3Store 0 (0 + 40)) [65] 0 0 ∧
    ∃ s2, setEntry c3Store 40 0 [65] 2 5 = .ok s2 ∧
      s2.length = c3Store.length ∧
      (∀ j, j < 0 + 0 + 2 ∨ 0 + 0 + 18 ≤ j → s2[j]? = c3Store[j]?) ∧
      pySlice s2 (0 + 0 + 2) (0 + 0 + 10) = bothEndianInt 2 ∧
      pySlice s2 (0 + 0 + 10) (0 + 0 + 18) = bothEndianInt 5 :=
  c3_setentry_frame c3Store 40 0 [65] 2 5 0 (by decide) (by rfl) (by decide)

theorem dropWhile_length_le_self (p : Nat → Bool) (l : List Nat) :
    (l.dropWhile p).length ≤ l.length := by
  induction l with
  | nil => simp
  | cons x xs ih =>
    by_cases h : p x
    · rw [List.dropWhile_cons_of_pos h]
      simp only [List.length_cons]
      omega
    · rw [List.dropWhile_cons_of_neg h]

theorem dropWhile_getLast?_of_ne_nil (p : Nat → Bool) (l : List Nat)
    (h : l.dropWhile p ≠ []) : (l.dropWhile p).getLast? = l.getLast? := by
  induction l with
  | nil => simp at h
  | cons x xs ih =>
    by_cases hx : p x
    · rw [List.dropWhile_cons_of_pos hx] at h ⊢
      rw [ih h]
      have hxs : xs ≠ [] := by
        intro hn
        subst hn
        simp at h
      rw [show x :: xs = [x] ++ xs from rfl,
        List.getLast?_append_of_ne_nil [x] hxs]
    · rw [List.dropWhile_cons_of_neg hx]

theorem pyStrip_ne_of_edge_space (l : List Nat)
    (h : (∃ b, l.head? = some b ∧ isPySpace b = true) ∨
      (∃ b, l.getLast? = some b ∧ isPySpace b = true)) :
    pyStrip l ≠ l := by
  have hlen : (pyStrip l).length < l.length := by
    unfold pyStrip
    rcases h with ⟨b, hb, hsp⟩ | ⟨b, hb, hsp⟩
    · cases l with
      | nil => simp at hb
      | cons x xs =>
        rw [List.head?_cons] at hb
        injection hb with hb
        subst hb
        rw [List.dropWhile_cons_of_pos hsp]
        have a1 := dropWhile_length_le_self isPySpace xs
        have a2 := dropWhile_length_le_self isPySpace
          ((xs.dropWhile isPySpace).reverse)
        simp only [List.length_reverse, List.length_cons] at a2 ⊢
        omega
    · have hne : l ≠ [] := by
        intro hn
        subst hn
        simp at hb
      cases hdw : l.dropWhile isPySpace with
      | nil =>
        simp only [List.reverse_nil, List.dropWhile_nil, List.length_reverse,
          List.length_nil]
        exact List.length_pos.mpr hne
      | cons y ys =>
        have hdne : l.dropWhile isPySpace ≠ [] := by rw [hdw]; simp
        have hlast := dropWhile_getLast?_of_ne_nil isPySpace l hdne
        rw [hb] at hlast
        have hrevhead : (l.dropWhile isPySpace).reverse.head? = some b := by
          rw [List.head?_reverse]
          exact hlast
        cases hrev : (l.dropWhile isPySpace).reverse with
        | nil =>
          rw [hrev] at hrevhead
          simp at hrevhead
        | cons w ws =>
          rw [hrev] at hrevhead
          rw [List.head?_cons] at hrevhead
          injection hrevhead with hrevhead
          subst hrevhead
          rw [← hdw, hrev, List.dropWhile_cons_of_pos hsp]
          have a1 := dropWhile_length_le_self isPySpace ws
          have a2 : (w :: ws).length = (l.dropWhile isPySpace).length := by
            rw [← hrev, List.length_reverse]
          have a3 := dropWhile_length_le_self isPySpace l
          simp only [List.length_cons] at a2
          simp only [List.length_reverse]
          have a4 := dropWhile_length_le_self isPySpace ws
          omega
  intro heq
  rw [heq] at hlen
  omega

/-- C10: every name decoded from a path-table record
    (`PathTable._get_name`) or a directory-table record
    (`DirTable._get_name`) is whitespace-stripped before being stored or
    compared — `set_entry`'s scan compares the target against exactly
    `dtGetName`, the stripped form — and for any on-disk name bytes with
    leading or trailing whitespace the decoded name differs from the stored
    bytes. -/
theorem c10_names_stripped (entry : List Nat) (n : Nat) (raw : List Nat) :
    ptGetName entry n = pyStrip (pySlice entry 8 (8 + n)) ∧
    dtGetName entry n = pyStrip (pySlice entry 33 (33 + n)) ∧
    ((∃ b, raw.head? = some b ∧ isPySpace b = true) ∨
      (∃ b, raw.getLast? = some b ∧ isPySpace b = true) →
      pyStrip raw ≠ raw) :=
  ⟨rfl, rfl, fun h => pyStrip_ne_of_edge_space raw h⟩

/-- Witness for C10 at concrete inputs: a record carrying the stored name
    bytes `" A "` (32, 65, 32) decodes to `[65]`, which differs from the
    stored bytes. -/
theorem c10_names_stripped_witness :
    dtGetName ([34, 0, 1, 0, 0, 0, 0, 0, 0, 1, 9, 0, 0, 0, 0, 0, 0, 9] ++
        List.replicate 14 0 ++ [3, 32, 65, 32]) 3 = [65] ∧
    pyStrip [32, 65, 32] ≠ [32, 65, 32] :=
  ⟨by rfl, (c10_names_stripped [] 0 [32, 65, 32]).2.2 (Or.inl ⟨32, rfl, rfl⟩)⟩

/-! ## The filesystem tree and the block allocator

The tree that `PathTables.get_path_tree` builds is modelled directly: a
folder node carries its name, LBA and children (sub-folders then files, as
built), a file node its name, LBA and size.  Paths are modelled as the list
of name segments from the root (the root's path is the empty list; the
Python code renders these as `"/"`-joined strings). -/

mutual
inductive TObj : Type where
  | file : List Nat → Nat → Nat → TObj
  | folder : List Nat → Nat → TObjList → TObj

inductive TObjList : Type where
  | nil : TObjList
  | cons : TObj → TObjList → TObjList
end

/-- A path: the name segments from the root. -/
abbrev SegPath := List (List Nat)

/-- A `(lba, path)` pair of `Ps2Iso._get_lba_list`. -/
abbrev LbaEntry := Nat × SegPath

/-- `TreeObject.name`. -/
def tname : TObj → List Nat
  | .file n _ _ => n
  | .folder n _ _ => n

/-- `TreeObject.lba`. -/
def tlba : TObj → Nat
  | .file _ lba _ => lba
  | .folder _ lba _ => lba

mutual
/-- `Ps2Iso._get_lba_list` on a non-root node at base path `base`: append
    the node's own `(lba, path)` pair, then recurse into children. -/
def flattenObj : TObj → SegPath → List LbaEntry
  | .file n lba _, base => [(lba, base ++ [n])]
  | .folder n lba cs, base =>
    (lba, base ++ [n]) :: flattenList cs (base ++ [n])

def flattenList : TObjList → SegPath → List LbaEntry
  | .nil, _ => []
  | .cons o os, base => flattenObj o base ++ flattenList os base
end

/-- `Ps2Iso._get_lba_list` on the root: the root's own path is empty. -/
def rootLbaPairs : TObj → List LbaEntry
  | .file _ lba _ => [(lba, [])]
  | .folder _ lba cs => (lba, []) :: flattenList cs []

/-- `list(set(...))` on the lba list: collapse duplicate pairs (Python's set
    iteration order is unspecified; the first occurrence is kept here). -/
def dedupKeepFirst (l : List LbaEntry) : List LbaEntry :=
  l.foldl (fun acc x => if x ∈ acc then acc else acc ++ [x]) []

/-- Compare `(lba, path)` entries by their LBA (the `sorted` key). -/
abbrev entLE (x y : LbaEntry) : Prop := x.1 ≤ y.1

instance : IsTotal LbaEntry entLE := ⟨fun a b => Nat.le_total a.1 b.1⟩

instance : IsTrans LbaEntry entLE := ⟨fun _ _ _ => Nat.le_trans⟩

/-- `Ps2Iso.get_lba_list`: deduplicate, then sort (stably) by LBA. -/
def lbaListOf (root : TObj) : List LbaEntry :=
  List.insertionSort entLE (dedupKeepFirst (rootLbaPairs root))

/-- `TreeFolder.get_child` / `next(...)`: first child with the given name. -/
def findChild : TObjList → List Nat → Option TObj
  | .nil, _ => none
  | .cons o os, n => if tname o = n then some o else findChild os n

/-- `Ps2Iso.get_object`: walk the path segments from the root; a missing
    child is the generator's `StopIteration`, and descending into a file is
    an `AttributeError` (files have no `get_child`). -/
def getObject : TObj → SegPath → Except String TObj
  | o, [] => .ok o
  | .folder _ _ cs, n :: rest =>
    match findChild cs n with
    | some c => getObject c rest
    | none => .error "StopIteration"
  | .file _ _ _, _ :: _ => .error "AttributeError"

/-- The state of a `Ps2Iso` object: the block size read from the PVD, the
    mutable byte store, and the tree built at open time. -/
structure IsoState : Type where
  bs : Nat
  data : List Nat
  root : TObj

/-- `Ps2Iso.get_lba_list` of a state. -/
def lbaList (s : IsoState) : List LbaEntry :=
  lbaListOf s.root

/-- `Ps2Iso.get_lba`. -/
def getLba (s : IsoState) (p : SegPath) : Except String Nat :=
  (getObject s.root p).map tlba

/-- `Ps2Iso.get_blocks_allocated`: find the first index of `path` in the
    sorted, deduplicated lba list; if a next entry exists the allocation is
    the gap to its LBA, otherwise it is `blocks_required(obj.data)` — the
    byte length of the store slice `[lba*bs, lba*bs + size)` divided into
    blocks (a folder has no `data`, hence `AttributeError`). -/
def getBlocksAllocated (s : IsoState) (p : SegPath) : Except String Nat :=
  match (lbaList s).findIdx? (fun x => decide (x.2 = p)) with
  | none => .error "StopIteration"
  | some i =>
    match (lbaList s)[i + 1]? with
    | some e2 =>
      match (lbaList s)[i]? with
      | some e1 => .ok (e2.1 - e1.1)
      | none => .error "unreachable"
    | none =>
      match getObject s.root p with
      | .ok (.file _ flba fsize) =>
        .ok (blocksRequired s.bs
          (pySlice s.data (flba * s.bs) (flba * s.bs + fsize)).length)
      | .ok (.folder _ _ _) => .error "AttributeError"
      | .error e => .error e

/-- `Ps2Iso.get_next_free_block`: the last lba-list entry's LBA plus that
    path's allocated block count (an empty list is an `IndexError`). -/
def getNextFreeBlock (s : IsoState) : Except String Nat :=
  match (lbaList s).getLast? with
  | none => .error "IndexError"
  | some e =>
    match getBlocksAllocated s e.2 with
    | .ok n => .ok (e.1 + n)
    | .error er => .error er

theorem findIdx?_spec {α : Type} (q : α → Bool) (l : List α) (i : Nat)
    (h : l.findIdx? q = some i) : ∃ x, l[i]? = some x ∧ q x = true := by
  induction l generalizing i with
  | nil => simp [List.findIdx?] at h
  | cons y ys ih =>
    rw [List.findIdx?_cons] at h
    by_cases hy : q y = true
    · rw [if_pos hy] at h
      injection h with h
      subst h
      exact ⟨y, by simp, hy⟩
    · rw [if_neg hy, List.findIdx?_succ] at h
      rcases Option.map_eq_some'.mp h with ⟨j, hj, hji⟩
      rcases ih j hj with ⟨x, hx, hqx⟩
      refine ⟨x, ?_, hqx⟩
      subst hji
      simpa using hx

theorem findIdx?_of_nodup_paths (l : List LbaEntry) (j : Nat) (x : LbaEntry)
    (hx : l[j]? = some x) (hnd : (l.map Prod.snd).Nodup) :
    l.findIdx? (fun y => decide (y.2 = x.2)) = some j := by
  induction l generalizing j with
  | nil => simp at hx
  | cons y ys ih =>
    rw [List.map_cons, List.nodup_cons] at hnd
    cases j with
    | zero =>
      simp only [List.getElem?_cons_zero] at hx
      injection hx with hx
      subst hx
      rw [List.findIdx?_cons, if_pos (by simp)]
    | succ j =>
      simp only [List.getElem?_cons_succ] at hx
      have hmem : x.2 ∈ ys.map Prod.snd :=
        List.mem_map_of_mem Prod.snd (List.getElem?_mem hx)
      have hne : ¬(decide (y.2 = x.2) = true) := by
        simp only [decide_eq_true_eq]
        intro hcontra
        exact hnd.1 (hcontra ▸ hmem)
      rw [List.findIdx?_cons, if_neg hne, List.findIdx?_succ, ih j hx hnd.2]
      rfl

theorem lbaListOf_sorted (root : TObj) :
    List.Sorted entLE (lbaListOf root) :=
  List.sorted_insertionSort entLE _

theorem lbaList_fst_le (s : IsoState) (i j : Nat) (hij : i ≤ j)
    (ei ej : LbaEntry) (hei : (lbaList s)[i]? = some ei)
    (hej : (lbaList s)[j]? = some ej) : ei.1 ≤ ej.1 := by
  simp only [lbaList] at hei hej
  rcases List.getElem?_eq_some.mp hei with ⟨hi, hgi⟩
  rcases List.getElem?_eq_some.mp hej with ⟨hj, hgj⟩
  rcases Nat.eq_or_lt_of_le hij with heq | hlt
  · subst heq
    rw [hgi] at hgj
    rw [hgj]
  · have := List.Sorted.rel_get_of_lt (lbaListOf_sorted s.root)
      (a := ⟨i, hi⟩) (b := ⟨j, hj⟩) hlt
    simpa [entLE, List.get_eq_getElem, hgi, hgj] using this

/-- C4: for a path found at (first) index `i` of the sorted, deduplicated
    lba list: when the path's LBA is not the highest in the list, a next
    entry exists and the allocation is the gap to its LBA; when the path's
    entry is the last one, the allocation is `ceil(size / block_size)`
    computed from the object's byte size (its `data` slice), provided the
    object is a file whose extent lies inside the store. -/
theorem c4_blocks_allocated (s : IsoState) (p : SegPath) (i : Nat)
    (e1 : LbaEntry)
    (hidx : (lbaList s).findIdx? (fun x => decide (x.2 = p)) = some i)
    (he1 : (lbaList s)[i]? = some e1) :
    ((∃ y ∈ lbaList s, e1.1 < y.1) →
      ∃ e2, (lbaList s)[i + 1]? = some e2 ∧
        getBlocksAllocated s p = .ok (e2.1 - e1.1)) ∧
    (i + 1 = (lbaList s).length →
      ∀ nm flba fsize, getObject s.root p = .ok (.file nm flba fsize) →
        flba * s.bs + fsize ≤ s.data.length → 0 < s.bs →
        getBlocksAllocated s p = .ok (blocksRequired s.bs fsize)) := by
  constructor
  · rintro ⟨y, hy, hlt⟩
    rcases List.mem_iff_getElem?.mp hy with ⟨j, hj⟩
    have hij : i < j := by
      by_contra hcon
      have := lbaList_fst_le s j i (by omega) y e1 hj he1
      omega
    have hjlt : j < (lbaList s).length :=
      (List.getElem?_eq_some.mp hj).1
    have hi1 : i + 1 < (lbaList s).length := by omega
    have he2 : (lbaList s)[i + 1]? = some (lbaList s)[i + 1] :=
      List.getElem?_eq_getElem hi1
    refine ⟨(lbaList s)[i + 1], he2, ?_⟩
    simp only [getBlocksAllocated, hidx, he2, he1]
  · intro hlen nm flba fsize hobj hcov hbs
    have hnone : (lbaList s)[i + 1]? = none :=
      List.getElem?_eq_none (by omega)
    have hslice : (pySlice s.data (flba * s.bs) (flba * s.bs + fsize)).length
        = fsize := by
      rw [pySlice_length]
      omega
    simp only [getBlocksAllocated, hidx, hnone, hobj, hslice]

/-- C5: `get_next_free_block()` is the last lba-list entry's LBA plus that
    entry's allocated block count, and it is at least every entry's LBA plus
    that entry's allocated block count, so appended content never lands
    inside an interior gap (paths are assumed unique, as the specification
    assumes names unique within a directory). -/
theorem c5_next_free_block (s : IsoState) (e : LbaEntry) (a : Nat)
    (hlast : (lbaList s).getLast? = some e)
    (hnd : ((lbaList s).map Prod.snd).Nodup)
    (halloc : getBlocksAllocated s e.2 = .ok a) :
    getNextFreeBlock s = .ok (e.1 + a) ∧
    ∀ x ∈ lbaList s, ∀ b, getBlocksAllocated s x.2 = .ok b →
      x.1 + b ≤ e.1 + a := by
  have hlastg : (lbaList s)[(lbaList s).length - 1]? = some e := by
    rw [← List.getLast?_eq_getElem?]
    exact hlast
  have hlenpos : 0 < (lbaList s).length := by
    rcases List.getElem?_eq_some.mp hlastg with ⟨h1, _⟩
    omega
  constructor
  · simp only [getNextFreeBlock, hlast, halloc]
  · intro x hx b hb
    rcases List.mem_iff_getElem?.mp hx with ⟨j, hj⟩
    have hjlt : j < (lbaList s).length := (List.getElem?_eq_some.mp hj).1
    have hfind := findIdx?_of_nodup_paths (lbaList s) j x hj hnd
    rcases hnext : (lbaList s)[j + 1]? with _ | e2
    · have hjlast : j = (lbaList s).length - 1 := by
        have := List.getElem?_eq_none_iff.mp hnext
        omega
      have hxe : x = e := by
        rw [hjlast] at hj
        rw [hj] at hlastg
        injection hlastg
      subst hxe
      rw [halloc] at hb
      injection hb with hb
      omega
    · simp only [getBlocksAllocated, hfind, hnext, hj] at hb
      have hb2 : e2.1 - x.1 = b := by simpa using hb
      have hx2 : x.1 ≤ e2.1 := lbaList_fst_le s j (j + 1) (by omega) x e2 hj hnext
      have hj1lt : j + 1 < (lbaList s).length := (List.getElem?_eq_some.mp hnext).1
      have he2e : e2.1 ≤ e.1 :=
        lbaList_fst_le s (j + 1) ((lbaList s).length - 1) (by omega) e2 e
          hnext hlastg
      omega

/-! ## A small concrete image used as test input

Block size 64; block 0 is the root directory table (two degenerate
length-1 stub records, then the record of file `"A"` — LBA 1, size 10 —
then the end-of-block marker); block 1 is the file content. -/

/-- The tree: root folder at LBA 0 with one file `"A"` at LBA 1, size 10. -/
def exRoot : TObj :=
  .folder [82] 0 (.cons (.file [65] 1 10) .nil)

/-- Block 0: the root's directory table. -/
def exTable : List Nat :=
  [1, 1] ++ [34, 0, 1, 0, 0, 0, 0, 0, 0, 1, 10, 0, 0, 0, 0, 0, 0, 10] ++
    List.replicate 14 0 ++ [1, 65] ++ [0] ++ List.replicate 27 0

/-- The 128-byte store: directory table block, then the file content. -/
def exData : List Nat :=
  exTable ++ List.replicate 10 7 ++ List.replicate 54 0

/-- The example image state. -/
def exE : IsoState := ⟨64, exData, exRoot⟩

/-- Witness for C4 at `exE`: the root (LBA 0) is not the highest entry, so
    its allocation is the gap to the next LBA; the file `"A"` is the last
    entry, so its allocation comes from its byte size. -/
theorem c4_blocks_allocated_witness :
    (∃ e2, (lbaList exE)[0 + 1]? = some e2 ∧
      getBlocksAllocated exE [] = .ok (e2.1 - (0, ([] : SegPath)).1)) ∧
    getBlocksAllocated exE [[65]] = .ok (blocksRequired exE.bs 10) :=
  ⟨(c4_blocks_allocated exE [] 0 (0, []) (by rfl) (by rfl)).1
      ⟨(1, [[65]]), by decide, by decide⟩,
    (c4_blocks_allocated exE [[65]] 1 (1, [[65]]) (by rfl) (by rfl)).2
      (by rfl) [65] 1 10 (by rfl) (by decide) (by decide)⟩

/-- Witness for C5 at `exE`: the next free block is `1 + 1 = 2` and it
    bounds every entry's end block. -/
theorem c5_next_free_block_witness :
    getNextFreeBlock exE = .ok ((1 : Nat) + 1) ∧
    ∀ x ∈ lbaList exE, ∀ b, getBlocksAllocated exE x.2 = .ok b →
      x.1 + b ≤ 1 + 1 :=
  c5_next_free_block exE (1, [[65]]) 1 (by rfl) (by decide) (by rfl)

/-! ## `Ps2Iso.replace_files` and its helpers -/

/-- One item of a `replace_files` batch, as the dict built in the code:
    path, new content, its byte size, the blocks it requires, and the
    current LBA and current block allocation of the path. -/
structure RItem : Type where
  path : SegPath
  bin : List Nat
  size : Nat
  blocksReq : Nat
  currLba : Nat
  currAlloc : Nat
deriving DecidableEq

/-- Sequence a fallible computation over a list (a Python list
    comprehension whose body may raise). -/
def mapExcept (f : SegPath → Except String Nat) : List SegPath → Except String (List Nat)
  | [] => .ok []
  | p :: ps =>
    match f p with
    | .error e => .error e
    | .ok v =>
      match mapExcept f ps with
      | .error e => .error e
      | .ok vs => .ok (v :: vs)

/-- `zip` of the six per-item columns of `replace_files` (truncating, like
    Python's `zip`). -/
def mkItems : List SegPath → List (List Nat) → List Nat → List Nat →
    List Nat → List Nat → List RItem
  | p :: ps, b :: bsx, sz :: szs, br :: brs, cl :: cls, cb :: cbs =>
    ⟨p, b, sz, br, cl, cb⟩ :: mkItems ps bsx szs brs cls cbs
  | _, _, _, _, _, _ => []

/-- The read-only pre-flight phase of `replace_files`: compute sizes and
    required blocks for every item, then every item's current LBA, then
    every item's current allocation (any failure aborts before any byte of
    the store is touched). -/
def computeItems (s : IsoState) (reps : List (SegPath × List Nat)) :
    Except String (List RItem) :=
  match mapExcept (getLba s) (reps.map Prod.fst) with
  | .error e => .error e
  | .ok clbas =>
    match mapExcept (getBlocksAllocated s) (reps.map Prod.fst) with
    | .error e => .error e
    | .ok callocs =>
      .ok (mkItems (reps.map Prod.fst) (reps.map Prod.snd)
        ((reps.map Prod.snd).map List.length)
        ((reps.map Prod.snd).map (fun b => blocksRequired s.bs b.length))
        clbas callocs)

/-- `Ps2Iso.update_toc(path, lba, size)`: resolve the object, then rewrite
    its record in its parent's directory table (`obj.parent._dirtable`, at
    the parent's LBA); the root has no parent. -/
def updateToc (s : IsoState) (p : SegPath) (lba size : Nat) :
    Except String (List Nat) :=
  match getObject s.root p with
  | .error e => .error e
  | .ok child =>
    match p with
    | [] => .error "AttributeError"
    | _ :: _ =>
      match getObject s.root p.dropLast with
      | .ok (.folder _ plba _) =>
        setEntry s.data s.bs (plba * s.bs) (tname child) lba size
      | .ok (.file _ _ _) => .error "AttributeError"
      | .error e => .error e

/-- The unconditional clear phase of `replace_files`: zero every item's
    currently allocated blocks (`clear_blocks`). -/
def clearPhase (s : IsoState) (items : List RItem) : IsoState :=
  ⟨s.bs,
    items.foldl
      (fun d i =>
        overwrite d (List.replicate (i.currAlloc * s.bs) 0) s.bs
          (i.currLba * s.bs)) s.data,
    s.root⟩

/-- The write phase of `replace_files` with `allow_move=False`: every item
    keeps `new_lba = curr_lba`, its content is written at
    `curr_lba * block_size`, and `update_toc` is invoked with the unchanged
    LBA.  The returned list collects each processed item's `new_lba` (the
    values the code stores in the item dicts); an exception stops the
    loop. -/
def writeLoopNoMove : IsoState → List RItem → IsoState × Option String × List Nat
  | s, [] => (s, none, [])
  | s, i :: rest =>
    let s1 : IsoState :=
      ⟨s.bs, overwrite s.data i.bin s.bs (i.currLba * s.bs), s.root⟩
    match updateToc s1 i.path i.currLba i.size with
    | .error e => (s1, some e, [i.currLba])
    | .ok d2 =>
      let r := writeLoopNoMove ⟨s1.bs, d2, s1.root⟩ rest
      (r.1, r.2.1, i.currLba :: r.2.2)

/-- The write phase of `replace_files` with `allow_move=True`: every item —
    oversized or not — is assigned `new_lba = get_next_free_block()`
    (recomputed on the live object before each item's write), its content is
    written there, and `update_toc` records the new LBA. -/
def writeLoopMove : IsoState → List RItem → IsoState × Option String × List Nat
  | s, [] => (s, none, [])
  | s, i :: rest =>
    match getNextFreeBlock s with
    | .error e => (s, some e, [])
    | .ok nl =>
      let s1 : IsoState :=
        ⟨s.bs, overwrite s.data i.bin s.bs (nl * s.bs), s.root⟩
      match updateToc s1 i.path nl i.size with
      | .error e => (s1, some e, [nl])
      | .ok d2 =>
        let r := writeLoopMove ⟨s1.bs, d2, s1.root⟩ rest
        (r.1, r.2.1, nl :: r.2.2)

/-- The `ValueError` message of the pre-flight overflow check. -/
def overflowMsg : String := "allow_move must be true to increase file sizes"

/-- `Ps2Iso.replace_files(replacements, allow_move)`: pre-flight
    computation, overflow check (raising before any mutation when an item
    overflows and moving is not allowed), the clear phase, then the write
    phase.  The result carries the final state, the raised error (if any),
    and the `new_lba` values assigned to the processed items. -/
def replaceFilesFull (s : IsoState) (reps : List (SegPath × List Nat))
    (allowMove : Bool) : IsoState × Option String × List Nat :=
  match computeItems s reps with
  | .error e => (s, some e, [])
  | .ok items =>
    if items.filter (fun i => decide (i.currAlloc < i.blocksReq)) ≠ [] ∧
        allowMove = false then
      (s, some overflowMsg, [])
    else
      if allowMove = false then writeLoopNoMove (clearPhase s items) items
      else writeLoopMove (clearPhase s items) items

/-- C1: when the pre-flight phase succeeds and some item requires more
    blocks than it currently has allocated, `replace_files` with
    `allow_move=False` raises the `ValueError` before any mutation: the
    returned state is exactly the input state (no zeroing, no content
    write, no directory-record update for any item of the batch). -/
theorem c1_preflight_atomic (s : IsoState) (reps : List (SegPath × List Nat))
    (items : List RItem) (hitems : computeItems s reps = .ok items)
    (hover : ∃ i ∈ items, i.currAlloc < i.blocksReq) :
    replaceFilesFull s reps false = (s, some overflowMsg, []) := by
  have hfilter :
      items.filter (fun i => decide (i.currAlloc < i.blocksReq)) ≠ [] := by
    rcases hover with ⟨i, hi, hlt⟩
    exact List.ne_nil_of_mem (List.mem_filter.mpr ⟨hi, by simpa⟩)
  simp only [replaceFilesFull, hitems]
  rw [if_pos ⟨hfilter, trivial⟩]

/-- The overflowing batch used to exercise C1: 100 new bytes need 2 blocks
    but the file only has 1 allocated. -/
def c1Item : RItem := ⟨[[65]], List.replicate 100 7, 100, 2, 1, 1⟩

/-- Witness for C1 at `exE`: the oversized replacement fails with the
    `ValueError` and the state is unchanged. -/
theorem c1_preflight_atomic_witness :
    replaceFilesFull exE [([[65]], List.replicate 100 7)] false =
      (exE, some overflowMsg, []) :=
  c1_preflight_atomic exE [([[65]], List.replicate 100 7)] [c1Item]
    (by rfl) ⟨c1Item, by decide, by decide⟩

theorem writeLoopNoMove_assignments (items : List RItem) (s : IsoState) :
    ∃ n, (writeLoopNoMove s items).2.2 = (items.take n).map RItem.currLba ∧
      ((writeLoopNoMove s items).2.1 = none →
        (writeLoopNoMove s items).2.2 = items.map RItem.currLba) := by
  induction items generalizing s with
  | nil => exact ⟨0, rfl, fun _ => rfl⟩
  | cons i rest ih =>
    rw [writeLoopNoMove]
    cases htoc : updateToc
        ⟨s.bs, overwrite s.data i.bin s.bs (i.currLba * s.bs), s.root⟩
        i.path i.currLba i.size with
    | error e =>
      refine ⟨1, by simp, fun hc => ?_⟩
      simp at hc
    | ok d2 =>
      rcases ih ⟨s.bs, d2, s.root⟩ with ⟨n, hn, hclean⟩
      refine ⟨n + 1, ?_, fun hc => ?_⟩
      · simp only [List.take_succ_cons, List.map_cons]
        rw [← hn]
      · simp only at hc
        simp only [List.map_cons]
        rw [← hclean hc]

/-- C2 (amended): with `allow_move=False`, every item `replace_files`
    processes is assigned `new_lba = curr_lba` — its content is overwritten
    at its existing LBA and `update_toc` is invoked with the unchanged LBA —
    and a successful call processes every item that way.  (With
    `allow_move=True` the code relocates every item, fitting or not; see the
    counterexample.) -/
theorem c2_in_place_when_no_move (s : IsoState)
    (reps : List (SegPath × List Nat)) (items : List RItem)
    (hitems : computeItems s reps = .ok items) :
    ∃ n, (replaceFilesFull s reps false).2.2 =
        (items.take n).map RItem.currLba ∧
      ((replaceFilesFull s reps false).2.1 = none →
        (replaceFilesFull s reps false).2.2 = items.map RItem.currLba) := by
  simp only [replaceFilesFull, hitems]
  by_cases hov : items.filter (fun i => decide (i.currAlloc < i.blocksReq)) ≠ []
  · rw [if_pos ⟨hov, trivial⟩]
    exact ⟨0, rfl, fun hc => by simp at hc⟩
  · rw [if_neg (by tauto)]
    simp only [if_true]
    exact writeLoopNoMove_assignments items (clearPhase s items)

/-- Counterexample to C2 as stated: at `exE` the replacement content for
    `"/A"` needs 1 block and 1 block is allocated (it fits), yet with
    `allow_move=True` the call succeeds and assigns the item
    `new_lba = 2 ≠ 1`: the content is relocated to the end of the image and
    the directory record's little-endian LBA field changes from 1 to 2 — so
    a fitting item's LBA is *not* preserved "regardless of the value of
    allow_move". -/
theorem c2_in_place_counterexample :
    computeItems exE [([[65]], List.replicate 10 5)] =
      .ok [⟨[[65]], List.replicate 10 5, 10, 1, 1, 1⟩] ∧
    (replaceFilesFull exE [([[65]], List.replicate 10 5)] true).2.1 = none ∧
    (replaceFilesFull exE [([[65]], List.replicate 10 5)] true).2.2 = [2] ∧
    pySlice (replaceFilesFull exE [([[65]], List.replicate 10 5)] true).1.data
      4 8 = [2, 0, 0, 0] ∧
    pySlice exE.data 4 8 = [1, 0, 0, 0] :=
  ⟨rfl, rfl, rfl, rfl, rfl⟩

/-- The single-item batch of the C2 witness, as computed by the pre-flight
    phase. -/
def c2Items : List RItem := [⟨[[65]], List.replicate 10 5, 10, 1, 1, 1⟩]

/-- Witness for C2 (amended) at `exE` with `allow_move=False`. -/
theorem c2_in_place_when_no_move_witness :
    ∃ n, (replaceFilesFull exE [([[65]], List.replicate 10 5)] false).2.2 =
        (c2Items.take n).map RItem.currLba ∧
      ((replaceFilesFull exE [([[65]], List.replicate 10 5)] false).2.1 =
          none →
        (replaceFilesFull exE [([[65]], List.replicate 10 5)] false).2.2 =
          c2Items.map RItem.currLba) :=
  c2_in_place_when_no_move exE [([[65]], List.replicate 10 5)] c2Items (by rfl)

/-! ## Frame lemmas of `replace_files` over the tree and allocator (C9) -/

theorem listWrite_length_ge (l : List Nat) (a : Nat) (d : List Nat) :
    l.length ≤ (listWrite l a d).length := by
  simp only [listWrite, List.length_append, List.length_take, List.length_drop]
  omega

theorem overwrite_length_mono (store data : List Nat) (bs addr : Nat) :
    store.length ≤ (overwrite store data bs addr).length := by
  unfold overwrite
  by_cases h : store.length < addr + data.length
  · rw [if_pos h]
    calc store.length
        ≤ (store ++ List.replicate
            (blocksRequired bs (addr + data.length - store.length) * bs)
            0).length := by simp
      _ ≤ _ := listWrite_length_ge _ _ _
  · rw [if_neg h]
    exact listWrite_length_ge _ _ _

theorem setEntry_length_mono (store : List Nat) (bs dtAddr : Nat)
    (name : List Nat) (lba size : Nat) (s2 : List Nat)
    (h : setEntry store bs dtAddr name lba size = .ok s2) :
    store.length ≤ s2.length := by
  unfold setEntry at h
  cases hscan : scanTbl (pySlice store dtAddr (dtAddr + bs)) name with
  | error e => rw [hscan] at h; simp at h
  | ok o =>
    rw [hscan] at h
    cases o with
    | none =>
      simp only [Except.ok.injEq] at h
      subst h
      exact Nat.le_refl _
    | some idx =>
      simp only [Except.ok.injEq] at h
      subst h
      calc store.length
          ≤ (overwrite store (bothEndianInt lba) bs
              (dtAddr + idx + 2)).length := overwrite_length_mono _ _ _ _
        _ ≤ _ := overwrite_length_mono _ _ _ _

theorem updateToc_length_mono (s : IsoState) (p : SegPath) (lba size : Nat)
    (d2 : List Nat) (h : updateToc s p lba size = .ok d2) :
    s.data.length ≤ d2.length := by
  unfold updateToc at h
  cases hobj : getObject s.root p with
  | error e => rw [hobj] at h; simp at h
  | ok child =>
    rw [hobj] at h
    cases p with
    | nil => simp at h
    | cons q qs =>
      cases hpar : getObject s.root (q :: qs).dropLast with
      | error e => rw [hpar] at h; simp at h
      | ok parent =>
        rw [hpar] at h
        cases parent with
        | file _ _ _ => simp at h
        | folder _ plba _ =>
          exact setEntry_length_mono s.data s.bs (plba * s.bs) (tname child)
            lba size d2 h

theorem clearPhase_length_mono (items : List RItem) (s : IsoState) :
    s.data.length ≤ (clearPhase s items).data.length := by
  unfold clearPhase
  suffices hgen : ∀ d : List Nat, d.length ≤
      (items.foldl
        (fun d i =>
          overwrite d (List.replicate (i.currAlloc * s.bs) 0) s.bs
            (i.currLba * s.bs)) d).length by
    exact hgen s.data
  induction items with
  | nil => intro d; simp
  | cons i rest ih =>
    intro d
    calc d.length
        ≤ (overwrite d (List.replicate (i.currAlloc * s.bs) 0) s.bs
            (i.currLba * s.bs)).length := overwrite_length_mono _ _ _ _
      _ ≤ _ := ih _

theorem writeLoopNoMove_frame (items : List RItem) (s : IsoState) :
    (writeLoopNoMove s items).1.root = s.root ∧
    (writeLoopNoMove s items).1.bs = s.bs ∧
    s.data.length ≤ (writeLoopNoMove s items).1.data.length := by
  induction items generalizing s with
  | nil => exact ⟨rfl, rfl, Nat.le_refl _⟩
  | cons i rest ih =>
    rw [writeLoopNoMove]
    cases htoc : updateToc
        ⟨s.bs, overwrite s.data i.bin s.bs (i.currLba * s.bs), s.root⟩
        i.path i.currLba i.size with
    | error e =>
      exact ⟨rfl, rfl, overwrite_length_mono _ _ _ _⟩
    | ok d2 =>
      rcases ih ⟨s.bs, d2, s.root⟩ with ⟨h1, h2, h3⟩
      refine ⟨h1, h2, ?_⟩
      have hmid := updateToc_length_mono _ _ _ _ _ htoc
      simp only at hmid
      calc s.data.length
          ≤ (overwrite s.data i.bin s.bs (i.currLba * s.bs)).length :=
            overwrite_length_mono _ _ _ _
        _ ≤ d2.length := hmid
        _ ≤ _ := h3

theorem writeLoopMove_frame (items : List RItem) (s : IsoState) :
    (writeLoopMove s items).1.root = s.root ∧
    (writeLoopMove s items).1.bs = s.bs ∧
    s.data.length ≤ (writeLoopMove s items).1.data.length := by
  induction items generalizing s with
  | nil => exact ⟨rfl, rfl, Nat.le_refl _⟩
  | cons i rest ih =>
    rw [writeLoopMove]
    cases hnfb : getNextFreeBlock s with
    | error e => exact ⟨rfl, rfl, Nat.le_refl _⟩
    | ok nl =>
      dsimp only
      cases htoc : updateToc
          ⟨s.bs, overwrite s.data i.bin s.bs (nl * s.bs), s.root⟩
          i.path nl i.size with
      | error e =>
        exact ⟨rfl, rfl, overwrite_length_mono _ _ _ _⟩
      | ok d2 =>
        rcases ih ⟨s.bs, d2, s.root⟩ with ⟨h1, h2, h3⟩
        refine ⟨h1, h2, ?_⟩
        have hmid := updateToc_length_mono _ _ _ _ _ htoc
        simp only at hmid
        calc s.data.length
            ≤ (overwrite s.data i.bin s.bs (nl * s.bs)).length :=
              overwrite_length_mono _ _ _ _
          _ ≤ d2.length := hmid
          _ ≤ _ := h3

theorem replaceFilesFull_frame (s : IsoState)
    (reps : List (SegPath × List Nat)) (am : Bool) :
    (replaceFilesFull s reps am).1.root = s.root ∧
    (replaceFilesFull s reps am).1.bs = s.bs ∧
    s.data.length ≤ (replaceFilesFull s reps am).1.data.length := by
  unfold replaceFilesFull
  cases hitems : computeItems s reps with
  | error e => exact ⟨rfl, rfl, Nat.le_refl _⟩
  | ok items =>
    dsimp only
    by_cases hov : items.filter (fun i => decide (i.currAlloc < i.blocksReq))
        ≠ [] ∧ am = false
    · rw [if_pos hov]
      exact ⟨rfl, rfl, Nat.le_refl _⟩
    · rw [if_neg hov]
      by_cases ham : am = false
      · rw [if_pos ham]
        rcases writeLoopNoMove_frame items (clearPhase s items) with
          ⟨h1, h2, h3⟩
        refine ⟨h1, h2, Nat.le_trans (clearPhase_length_mono items s) h3⟩
      · rw [if_neg ham]
        rcases writeLoopMove_frame items (clearPhase s items) with
          ⟨h1, h2, h3⟩
        refine ⟨h1, h2, Nat.le_trans (clearPhase_length_mono items s) h3⟩

/-- Whether the image covers the last lba-list entry's object: when that
    object is a file, its extent `[lba*bs, lba*bs + size)` lies inside the
    store.  This is the only way `get_blocks_allocated` (and hence
    `get_next_free_block`) depends on the store rather than the tree: the
    final entry's allocation is computed from the length of its (clipped)
    data slice. -/
def lastCov (s : IsoState) : Bool :=
  match (lbaList s).getLast? with
  | none => true
  | some e =>
    match getObject s.root e.2 with
    | .ok (.file _ flba fsize) => decide (flba * s.bs + fsize ≤ s.data.length)
    | _ => true

theorem getBlocksAllocated_invariant (s s1 : IsoState)
    (hroot : s1.root = s.root) (hbs : s1.bs = s.bs)
    (hlen : s.data.length ≤ s1.data.length) (hcov : lastCov s = true)
    (p : SegPath) : getBlocksAllocated s1 p = getBlocksAllocated s p := by
  have hll : lbaList s1 = lbaList s := by simp [lbaList, hroot]
  unfold getBlocksAllocated
  rw [hll, hroot, hbs]
  cases hf : (lbaList s).findIdx? (fun x => decide (x.2 = p)) with
  | none => rfl
  | some i =>
    dsimp only
    cases hnext : (lbaList s)[i + 1]? with
    | some e2 => rfl
    | none =>
      cases hobj : getObject s.root p with
      | error e => rfl
      | ok o =>
        cases o with
        | folder nm flba cs => rfl
        | file nm flba fsize =>
          rcases findIdx?_spec _ _ _ hf with ⟨x, hx, hpred⟩
          have hxp : x.2 = p := of_decide_eq_true hpred
          have hilt : i < (lbaList s).length := (List.getElem?_eq_some.mp hx).1
          have hlast : (lbaList s).getLast? = some x := by
            rw [List.getLast?_eq_getElem?]
            have hi1 : (lbaList s).length ≤ i + 1 :=
              List.getElem?_eq_none_iff.mp hnext
            rw [show (lbaList s).length - 1 = i from by omega]
            exact hx
          have hcovb : flba * s.bs + fsize ≤ s.data.length := by
            unfold lastCov at hcov
            rw [hlast] at hcov
            dsimp only at hcov
            rw [hxp, hobj] at hcov
            dsimp only at hcov
            exact of_decide_eq_true hcov
          have h1 : (pySlice s1.data (flba * s.bs) (flba * s.bs + fsize)).length
              = fsize := by
            rw [pySlice_length]
            omega
          have h2 : (pySlice s.data (flba * s.bs) (flba * s.bs + fsize)).length
              = fsize := by
            rw [pySlice_length]
            omega
          dsimp only
          rw [h1, h2]

theorem getNextFreeBlock_invariant (s s1 : IsoState)
    (hroot : s1.root = s.root) (hbs : s1.bs = s.bs)
    (hlen : s.data.length ≤ s1.data.length) (hcov : lastCov s = true) :
    getNextFreeBlock s1 = getNextFreeBlock s := by
  have hll : lbaList s1 = lbaList s := by simp [lbaList, hroot]
  unfold getNextFreeBlock
  rw [hll]
  cases hlast : (lbaList s).getLast? with
  | none => rfl
  | some e =>
    dsimp only
    rw [getBlocksAllocated_invariant s s1 hroot hbs hlen hcov e.2]

theorem writeLoopMove_nfb_stable (items : List RItem) (s0 : IsoState) :
    ∀ s : IsoState, s.root = s0.root → s.bs = s0.bs →
      s0.data.length ≤ s.data.length → lastCov s0 = true →
      ∀ nl ∈ (writeLoopMove s items).2.2, getNextFreeBlock s0 = .ok nl := by
  induction items with
  | nil =>
    intro s _ _ _ _ nl hnl
    simp [writeLoopMove] at hnl
  | cons i rest ih =>
    intro s hroot hbs hlen hcov nl hnl
    rw [writeLoopMove] at hnl
    cases hnfb : getNextFreeBlock s with
    | error e =>
      rw [hnfb] at hnl
      simp at hnl
    | ok v =>
      rw [hnfb] at hnl
      dsimp only at hnl
      have hv : getNextFreeBlock s0 = .ok v := by
        rw [← hnfb]
        exact (getNextFreeBlock_invariant s0 s hroot hbs hlen hcov).symm
      cases htoc : updateToc
          ⟨s.bs, overwrite s.data i.bin s.bs (v * s.bs), s.root⟩
          i.path v i.size with
      | error e =>
        rw [htoc] at hnl
        dsimp only at hnl
        simp only [List.mem_singleton] at hnl
        subst hnl
        exact hv
      | ok d2 =>
        rw [htoc] at hnl
        dsimp only at hnl
        rcases List.mem_cons.mp hnl with hnl | hnl
        · subst hnl
          exact hv
        · have hmid := updateToc_length_mono _ _ _ _ _ htoc
          dsimp only at hmid
          refine ih ⟨s.bs, d2, s.root⟩ hroot hbs ?_ hcov nl hnl
          calc s0.data.length
              ≤ s.data.length := hlen
            _ ≤ (overwrite s.data i.bin s.bs (v * s.bs)).length :=
                overwrite_length_mono _ _ _ _
            _ ≤ d2.length := hmid

/-- C9 (amended): `replace_files` never touches the in-memory tree — the
    root (and block size) of the state are unchanged, so `get_lba` returns
    the same values afterwards; `get_blocks_allocated` and
    `get_next_free_block` also return the same values afterwards *provided*
    the last on-disk object's extent lies inside the store (`lastCov`) —
    the store only ever grows, so a covered slice keeps its length; without
    coverage the clipped slice can lengthen (see the counterexample).  With
    `allow_move=True` and coverage, every processed item is assigned the
    same new LBA: the pre-call `get_next_free_block()`, so the content
    writes of any two relocated items start at the same address and overlap
    whenever both contents are nonempty. -/
theorem c9_tree_never_updated (s : IsoState)
    (reps : List (SegPath × List Nat)) (am : Bool) :
    (replaceFilesFull s reps am).1.root = s.root ∧
    (replaceFilesFull s reps am).1.bs = s.bs ∧
    (∀ p, getLba (replaceFilesFull s reps am).1 p = getLba s p) ∧
    (lastCov s = true →
      (∀ p, getBlocksAllocated (replaceFilesFull s reps am).1 p =
          getBlocksAllocated s p) ∧
      getNextFreeBlock (replaceFilesFull s reps am).1 = getNextFreeBlock s) ∧
    (am = true → lastCov s = true →
      ∀ nl ∈ (replaceFilesFull s reps am).2.2,
        getNextFreeBlock s = .ok nl) := by
  obtain ⟨hroot, hbs, hlen⟩ := replaceFilesFull_frame s reps am
  refine ⟨hroot, hbs, fun p => by simp [getLba, hroot],
    fun hcov =>
      ⟨fun p => getBlocksAllocated_invariant s _ hroot hbs hlen hcov p,
        getNextFreeBlock_invariant s _ hroot hbs hlen hcov⟩,
    ?_⟩
  intro ham hcov nl hnl
  subst ham
  unfold replaceFilesFull at hnl
  cases hitems : computeItems s reps with
  | error e =>
    rw [hitems] at hnl
    simp at hnl
  | ok items =>
    rw [hitems] at hnl
    dsimp only at hnl
    rw [if_neg (by simp)] at hnl
    rw [if_neg (by simp)] at hnl
    exact writeLoopMove_nfb_stable items s (clearPhase s items) rfl rfl
      (clearPhase_length_mono items s) hcov nl hnl

/-- The image state used to refute C9's "get_next_free_block returns the
    same values afterward": same table as `exE`, but the file claims 200
    bytes while the store is only 128 bytes long, so the file's data slice
    is clipped by the end of the store. -/
def exRoot2 : TObj := .folder [82] 0 (.cons (.file [65] 1 200) .nil)

/-- The 128-byte store of the clipped image. -/
def exE2 : IsoState := ⟨64, exTable ++ List.replicate 64 7, exRoot2⟩

/-- Counterexample to C9 as stated: replacing `"/A"` (which fits) with
    `allow_move=True` succeeds, but afterwards `get_blocks_allocated` and
    `get_next_free_block` return different values than before the call
    (1 → 2 blocks and 2 → 3), because the relocation grew the store from
    128 to 192 bytes and the last file's clipped data slice lengthened. -/
theorem c9_tree_never_updated_counterexample :
    (replaceFilesFull exE2 [([[65]], List.replicate 10 5)] true).2.1 =
      none ∧
    getNextFreeBlock exE2 = .ok 2 ∧
    getNextFreeBlock
      (replaceFilesFull exE2 [([[65]], List.replicate 10 5)] true).1 =
        .ok 3 ∧
    getBlocksAllocated exE2 [[65]] = .ok 1 ∧
    getBlocksAllocated
      (replaceFilesFull exE2 [([[65]], List.replicate 10 5)] true).1 [[65]] =
        .ok 2 :=
  ⟨rfl, rfl, rfl, rfl, rfl⟩

/-- Witness for C9 (amended) at `exE` (whose last object is covered by the
    store): the tree is unchanged, the allocator values are stable, and the
    single relocated item was assigned the pre-call next free block. -/
theorem c9_tree_never_updated_witness :
    lastCov exE = true ∧
    (replaceFilesFull exE [([[65]], List.replicate 10 5)] true).1.root =
      exE.root ∧
    getNextFreeBlock
      (replaceFilesFull exE [([[65]], List.replicate 10 5)] true).1 =
        getNextFreeBlock exE ∧
    getNextFreeBlock exE = .ok 2 :=
  ⟨by rfl,
    (c9_tree_never_updated exE [([[65]], List.replicate 10 5)] true).1,
    ((c9_tree_never_updated exE [([[65]], List.replicate 10 5)] true).2.2.2.1
      (by rfl)).2,
    (c9_tree_never_updated exE [([[65]], List.replicate 10 5)] true).2.2.2.2
      rfl (by rfl) 2 (by decide)⟩
